import Mathlib

/-!
Verification development for the cozo query engine sources:
a shallow embedding of `src/relation/value.rs`, `src/algebra/op/from.rs`,
`src/algo/degree_centrality.rs` and `src/parse/cozoscript/query.rs`,
together with theorems settling the specification's claims.
-/

set_option linter.unusedVariables false
set_option linter.unreachableTactic false
set_option linter.unusedTactic false
set_option linter.unnecessarySimpa false

namespace Cozo

/-! ## Chain/path planner (`src/algebra/op/from.rs`) -/

/-- Edge direction of a chain part, from `ChainPartEdgeDir` in `from.rs`. -/
inductive ChainPartEdgeDir where
  | Fwd
  | Bwd
  | Bidi
deriving DecidableEq, Repr

/-- Join type of a chain part, from `JoinType` in `from.rs`
(`FullOuter` is commented out in the source). -/
inductive JoinType where
  | Inner
  | Left
  | Right
deriving DecidableEq, Repr

/-- The grammar rules that may occur inside an edge marker pair,
from the `match pair.as_rule()` arms of `parse_edge_marker`. -/
inductive MarkerRule where
  | outer_marker
  | bwd_marker
  | fwd_marker
deriving DecidableEq, Repr

/-- `parse_edge_marker` of `from.rs`: folds over the marker's inner pairs,
setting `arrow_mark` on `bwd_marker`/`fwd_marker` and `outer_mark` on
`outer_marker`; returns `(arrow_mark, outer_mark)`. -/
def parse_edge_marker (ps : List MarkerRule) : Bool × Bool :=
  ps.foldl
    (fun acc p =>
      match p with
      | .outer_marker => (acc.1, true)
      | .bwd_marker => (true, acc.2)
      | .fwd_marker => (true, acc.2))
    (false, false)

/-- Output of `parse_node_part` in `from.rs`: binding, target table name and
associated table names.  Binding resolution (explicit identifier, or an
anonymous `"@" ++ uuid` name) and `build_name_in_def` happen upstream of the
logic under study, so a node part is modelled by its resolved data. -/
structure NodePartData where
  binding : String
  target : String
  assocs : List String
deriving DecidableEq, Repr

/-- An inner pair of a `chain` grammar node, as consumed by the
`match pair.as_rule()` loop of `parse_chain`: either a `node_part` or an
`edge_part` (source marker, middle node part, destination marker). -/
inductive ChainPairSrc where
  | node_part (np : NodePartData)
  | edge_part (src : List MarkerRule) (middle : NodePartData) (dst : List MarkerRule)
deriving DecidableEq, Repr

/-- `ChainPart` from `from.rs`. -/
inductive ChainPart where
  | Node
  | Edge (dir : ChainPartEdgeDir) (join : JoinType)
deriving DecidableEq, Repr

/-- `ChainEl` from `from.rs`. -/
structure ChainEl where
  part : ChainPart
  binding : String
  target : String
  assocs : List String
deriving DecidableEq, Repr

/-- `JoinError` from `from.rs`. -/
inductive JoinError where
  | NoFullOuterInChain
deriving DecidableEq, Repr

/-- The direction computation of `parse_chain` (lines 182–188 of `from.rs`):
`Bidi` when both or neither arrow is present, else `Fwd`/`Bwd` by the arrow. -/
def edgeDir (is_bwd is_fwd : Bool) : ChainPartEdgeDir :=
  if (is_fwd && is_bwd) || (!is_fwd && !is_bwd) then ChainPartEdgeDir.Bidi
  else if is_fwd then ChainPartEdgeDir.Fwd
  else ChainPartEdgeDir.Bwd

/-- The join computation of `parse_chain` (lines 189–194 of `from.rs`). -/
def edgeJoin (src_outer dst_outer : Bool) : Except JoinError JoinType :=
  match src_outer, dst_outer with
  | true, true => .error JoinError.NoFullOuterInChain
  | true, false => .ok JoinType.Right
  | false, true => .ok JoinType.Left
  | false, false => .ok JoinType.Inner

/-- One iteration of the `parse_chain` loop of `from.rs`, producing the
`ChainEl` pushed onto `collected` (or the early-return error). -/
def parseChainEl : ChainPairSrc → Except JoinError ChainEl
  | .node_part np => .ok ⟨ChainPart.Node, np.binding, np.target, np.assocs⟩
  | .edge_part src middle dst =>
    let (is_bwd, src_outer) := parse_edge_marker src
    let (is_fwd, dst_outer) := parse_edge_marker dst
    let dir := edgeDir is_bwd is_fwd
    match edgeJoin src_outer dst_outer with
    | .error e => .error e
    | .ok join => .ok ⟨ChainPart.Edge dir join, middle.binding, middle.target, middle.assocs⟩

/-- `parse_chain` of `from.rs`: processes the chain's inner pairs in order,
collecting `ChainEl`s and propagating the first error. -/
def parse_chain : List ChainPairSrc → Except JoinError (List ChainEl)
  | [] => .ok []
  | p :: ps =>
    match parseChainEl p with
    | .error e => .error e
    | .ok el =>
      match parse_chain ps with
      | .error e => .error e
      | .ok rest => .ok (el :: rest)

/-- Modelled from the spec: the subset of `AlgebraParseError`
(defined in `src/algebra/parser.rs`, which is not part of the sources)
used by `from.rs` — §7 lists `NotEnoughArguments(op)`, `Unchainable(op)`
and `DuplicateBinding(name)`. -/
inductive AlgebraParseError where
  | Unchainable (op : String)
  | NotEnoughArguments (op : String)
  | DuplicateBinding (binding : String)
deriving DecidableEq, Repr

/-- Failure outcomes of `build_chain`/`build_from_clause`: a planner error, a
propagated chain-parse error, or the `todo!()` panic at the end of
`build_chain` (reached for chains of more than one element). -/
inductive BuildErr where
  | alg (e : AlgebraParseError)
  | join (e : JoinError)
  | panicTodo
deriving DecidableEq, Repr

/-- Relational-algebra plan nodes produced by the `From` clause builder:
table scans and Cartesian joins (`RaBox` variants used in `from.rs`).
`TableScan::build` itself lives outside the sources; a successful scan is
modelled by the chain element it scans. -/
inductive RaBox where
  | tableScan (el : ChainEl)
  | cartesian (l r : RaBox)
deriving DecidableEq, Repr

/-- Modelled from the spec: `bindings()` of a plan node
(`RelationalAlgebra::bindings`, outside the sources) — §6 says each node
exposes the set of names it publishes upward; a scan publishes its element's
binding and a Cartesian join publishes the union of its sides. -/
def RaBox.bindings : RaBox → Finset String
  | .tableScan el => {el.binding}
  | .cartesian l r => l.bindings ∪ r.bindings

/-- `NAME_FROM` from `from.rs`. -/
def NAME_FROM : String := "From"

/-- The scan-collection loop of `build_chain` (lines 52–64 of `from.rs`):
builds a `TableScan` for each element and errors with `DuplicateBinding`
on the first element whose binding was already seen. -/
def scanLoop (seen : List String) : List ChainEl → Except BuildErr (List RaBox)
  | [] => .ok []
  | el :: els =>
    if el.binding ∈ seen then
      .error (BuildErr.alg (AlgebraParseError.DuplicateBinding el.binding))
    else
      match scanLoop (el.binding :: seen) els with
      | .error e => .error e
      | .ok rest => .ok (RaBox.tableScan el :: rest)

/-- `build_chain` of `from.rs`: parse the chain, collect scans with the
duplicate-binding check, then return the single scan — an empty chain is
`NotEnoughArguments` and a longer chain reaches the `todo!()` panic. -/
def build_chain (chain : List ChainPairSrc) : Except BuildErr RaBox :=
  match parse_chain chain with
  | .error e => .error (BuildErr.join e)
  | .ok els =>
    match scanLoop [] els with
    | .error e => .error e
    | .ok scans =>
      match scans with
      | [] => .error (BuildErr.alg (AlgebraParseError.NotEnoughArguments NAME_FROM))
      | [s] => .ok s
      | _ => .error BuildErr.panicTodo

/-- The `for arg in args` loop of `build_from_clause` (lines 29–41 of
`from.rs`): build the next chain, fail with `DuplicateBinding` naming the
least element of a non-empty binding intersection (the first element the
`BTreeSet` intersection iterator yields), else Cartesian-join and continue. -/
def fromLoop (ret : RaBox) : List (List ChainPairSrc) → Except BuildErr RaBox
  | [] => .ok ret
  | arg :: rest =>
    match build_chain arg with
    | .error e => .error e
    | .ok nxt =>
      let inter := ret.bindings ∩ nxt.bindings
      if h : inter = ∅ then
        fromLoop (RaBox.cartesian ret nxt) rest
      else
        .error (BuildErr.alg (AlgebraParseError.DuplicateBinding
          (inter.min' (Finset.nonempty_iff_ne_empty.mpr h))))

/-- `build_from_clause` of `from.rs`: a non-empty upstream is `Unchainable`,
no argument at all is `NotEnoughArguments`, otherwise the chains are built
and composed by `fromLoop`. -/
def build_from_clause (prev : Option RaBox) (args : List (List ChainPairSrc)) :
    Except BuildErr RaBox :=
  match prev with
  | some _ => .error (BuildErr.alg (AlgebraParseError.Unchainable NAME_FROM))
  | none =>
    match args with
    | [] => .error (BuildErr.alg (AlgebraParseError.NotEnoughArguments NAME_FROM))
    | a :: rest =>
      match build_chain a with
      | .error e => .error e
      | .ok ret => fromLoop ret rest

/-- Modelled from the spec: the operators of `src/data/op.rs` used by the
join synthesizer (`OpEq`, `OpAnd`), outside the sources. -/
inductive JoinOp where
  | OpEq
  | OpAnd
deriving DecidableEq, Repr

/-- Modelled from the spec: the fragment of `Expr` (`src/data/expr.rs`,
outside the sources) that `build_join_conditions` constructs — variables,
field accesses and operator applications (§4.3's equijoin predicates). -/
inductive JExpr where
  | Variable (s : String)
  | FieldAcc (field : String) (arg : JExpr)
  | Apply (op : JoinOp) (args : List JExpr)
deriving Repr

/-- `build_join_conditions` of `from.rs`: pick the side prefix from
(`node_to_edge`, `dir`) — `Bidi` hits a `todo!()` panic, modelled as `none` —
then for each node key `k` build
`edge.{prefix}{k} == node.{k}`, and wrap multiple equalities in `OpAnd`
(a single equality stays bare).  The node's key list comes from the ambient
context's table info (`resolve_table`/`get_table_info`, outside the
sources), so it is a parameter; `is_outer` is unused, as in the source. -/
def build_join_conditions (node_to_edge : Bool) (is_outer : Bool)
    (dir : ChainPartEdgeDir) (node_keys : List String)
    (node_binding edge_binding : String) : Option JExpr :=
  let dirPre : Option String :=
    if node_to_edge then
      match dir with
      | .Fwd => some "_src_"
      | .Bwd => some "_dst_"
      | .Bidi => none
    else
      match dir with
      | .Fwd => some "_dst_"
      | .Bwd => some "_src_"
      | .Bidi => none
  match dirPre with
  | none => none
  | some pre =>
    let conditions := node_keys.map (fun k =>
      JExpr.Apply JoinOp.OpEq
        [JExpr.FieldAcc (pre ++ k) (JExpr.Variable edge_binding),
         JExpr.FieldAcc k (JExpr.Variable node_binding)])
    some (match conditions with
      | [c] => c
      | cs => JExpr.Apply JoinOp.OpAnd cs)

/-- The claim's description of the synthesized join predicate, written from
its words for comparison with `build_join_conditions`: the prefix is
`_src_` when joining node-to-edge with `Fwd` or edge-to-node with `Bwd`,
`_dst_` in the two swapped cases; per-key equalities equate the edge
binding's prefixed field with the node binding's field; several keys
combine under a single `And`, one key stays a bare equality. -/
def claimJoinCond (node_to_edge : Bool) (dir : ChainPartEdgeDir)
    (node_keys : List String) (node_binding edge_binding : String) : JExpr :=
  let pre : String :=
    if (node_to_edge = true ∧ dir = ChainPartEdgeDir.Fwd) ∨
       (node_to_edge = false ∧ dir = ChainPartEdgeDir.Bwd) then "_src_"
    else "_dst_"
  let eqs := node_keys.map (fun k =>
    JExpr.Apply JoinOp.OpEq
      [JExpr.FieldAcc (pre ++ k) (JExpr.Variable edge_binding),
       JExpr.FieldAcc k (JExpr.Variable node_binding)])
  match eqs with
  | [c] => c
  | cs => JExpr.Apply JoinOp.OpAnd cs

/-! ## Value model (`src/relation/value.rs`) -/

/-- `Tag` from `value.rs`, with its explicit discriminant bytes. -/
inductive Tag where
  | BoolFalse
  | Null
  | BoolTrue
  | Int
  | Float
  | Text
  | Uuid
  | UInt
  | List
  | Dict
  | Variable
  | Apply
  | MaxTag
deriving DecidableEq, Repr

/-- The discriminant byte of each `Tag` variant, as written in `value.rs`
(`BoolFalse = 1`, …, `MaxTag = 255`). -/
def Tag.toByte : Tag → Nat
  | .BoolFalse => 1
  | .Null => 2
  | .BoolTrue => 3
  | .Int => 4
  | .Float => 5
  | .Text => 6
  | .Uuid => 7
  | .UInt => 8
  | .List => 128
  | .Dict => 129
  | .Variable => 253
  | .Apply => 254
  | .MaxTag => 255

/-- Stand-in for the `OrderedFloat<f64>` payload of `Value::Float`.
Floating-point layout and the NaN-canonicalised total order are not
representable in this embedding; no claim settled here inspects a float
payload, so the payload is kept as an abstract linearly ordered token. -/
abbrev F64Rep := Int

/-- Stand-in for the 128-bit `Uuid` payload; `uuid::Uuid` orders by its
bytes, modelled as the natural number those bytes denote. -/
abbrev UuidRep := Nat

/-- `Value` from `value.rs`, with variants in source declaration order
(`Null`, `Bool`, `UInt`, `Int`, `Float`, `Uuid`, `Text`, `List`, `Dict`,
`Variable`, `Apply`, `EndSentinel`).  `Cow<'a, str>` payloads are strings
(borrowed versus owned is a lifetime distinction with no observable content);
`u64` is modelled by `Nat` (no claim exercises `u64` wrap-around) and
`BTreeMap` by its sorted association list.  Constructors carry a `V` prefix
because names such as `Int` would clash with the payload types. -/
inductive Value where
  | VNull
  | VBool (b : Bool)
  | VUInt (u : Nat)
  | VInt (i : Int)
  | VFloat (f : F64Rep)
  | VUuid (u : UuidRep)
  | VText (t : String)
  | VList (l : List Value)
  | VDict (d : List (String × Value))
  | VVariable (s : String)
  | VApply (op : String) (args : List Value)
  | VEndSentinel
deriving Repr

/-- The variant index of a `Value` in declaration order: the discriminant
that Rust's `#[derive(PartialOrd, Ord)]` compares first. -/
def valueDiscr : Value → Nat
  | .VNull => 0
  | .VBool _ => 1
  | .VUInt _ => 2
  | .VInt _ => 3
  | .VFloat _ => 4
  | .VUuid _ => 5
  | .VText _ => 6
  | .VList _ => 7
  | .VDict _ => 8
  | .VVariable _ => 9
  | .VApply _ _ => 10
  | .VEndSentinel => 11

mutual

/-- The comparison of `value.rs`'s `#[derive(Ord, PartialOrd)]` on `Value`:
different variants compare by declaration order, equal variants compare
their fields in order (`bool`, integers, floats, uuids and strings by their
own orders; `Vec` and `BTreeMap` lexicographically; `Apply` by operator
symbol, then arguments). -/
def valueCompare : Value → Value → Ordering
  | .VNull, .VNull => .eq
  | .VBool a, .VBool b => compare a b
  | .VUInt a, .VUInt b => compare a b
  | .VInt a, .VInt b => compare a b
  | .VFloat a, .VFloat b => compare a b
  | .VUuid a, .VUuid b => compare a b
  | .VText a, .VText b => compare a b
  | .VList a, .VList b => valueCompareL a b
  | .VDict a, .VDict b => valueCompareD a b
  | .VVariable a, .VVariable b => compare a b
  | .VApply f a, .VApply g b =>
    match compare f g with
    | .eq => valueCompareL a b
    | o => o
  | .VEndSentinel, .VEndSentinel => .eq
  | a, b => compare (valueDiscr a) (valueDiscr b)

/-- Lexicographic comparison of `Vec<Value>` (a strict prefix is smaller). -/
def valueCompareL : List Value → List Value → Ordering
  | [], [] => .eq
  | [], _ :: _ => .lt
  | _ :: _, [] => .gt
  | a :: as_, b :: bs =>
    match valueCompare a b with
    | .eq => valueCompareL as_ bs
    | o => o

/-- Lexicographic comparison of `BTreeMap<Cow<str>, Value>` viewed as its
key-sorted entry sequence, each entry comparing key first, then value. -/
def valueCompareD : List (String × Value) → List (String × Value) → Ordering
  | [], [] => .eq
  | [], _ :: _ => .lt
  | _ :: _, [] => .gt
  | (k1, v1) :: xs, (k2, v2) :: ys =>
    match compare k1 k2 with
    | .eq =>
      match valueCompare v1 v2 with
      | .eq => valueCompareD xs ys
      | o => o
    | o => o

end

/-- `a < b` in the derived `Value` order. -/
def valueLt (a b : Value) : Prop := valueCompare a b = Ordering.lt

instance (a b : Value) : Decidable (valueLt a b) := by
  unfold valueLt; infer_instance

/-- Modelled from the spec: the tag each `Value` variant encodes under
(§3.1's table); the key encoder that writes the leading tag byte is outside
the sources.  `Bool(false)` tags as `BoolFalse`, `Bool(true)` as `BoolTrue`,
and `EndSentinel` as the `MaxTag` range sentinel. -/
def tagOfValue : Value → Tag
  | .VNull => .Null
  | .VBool false => .BoolFalse
  | .VBool true => .BoolTrue
  | .VUInt _ => .UInt
  | .VInt _ => .Int
  | .VFloat _ => .Float
  | .VUuid _ => .Uuid
  | .VText _ => .Text
  | .VList _ => .List
  | .VDict _ => .Dict
  | .VVariable _ => .Variable
  | .VApply _ _ => .Apply
  | .VEndSentinel => .MaxTag

mutual

/-- `Value::to_static` from `value.rs`: rebuilds the value with owned
payloads, recursing into lists, dicts and applications.  The
`panic!("Cannot process sentinel value")` on `EndSentinel` is modelled as
`none`; every other outcome is `some` of the rebuilt value.  Under the
embedding (which has no borrowed/owned distinction) the rebuilt payloads
are the original ones. -/
def toStatic : Value → Option Value
  | .VNull => some .VNull
  | .VBool b => some (.VBool b)
  | .VUInt u => some (.VUInt u)
  | .VInt i => some (.VInt i)
  | .VFloat f => some (.VFloat f)
  | .VUuid u => some (.VUuid u)
  | .VText t => some (.VText t)
  | .VVariable s => some (.VVariable s)
  | .VList l =>
    match toStaticL l with
    | none => none
    | some ws => some (.VList ws)
  | .VApply op args =>
    match toStaticL args with
    | none => none
    | some ws => some (.VApply op ws)
  | .VDict d =>
    match toStaticD d with
    | none => none
    | some ws => some (.VDict ws)
  | .VEndSentinel => none

/-- `to_static` mapped over the elements of a `Vec<Value>`; a panic in any
element propagates. -/
def toStaticL : List Value → Option (List Value)
  | [] => some []
  | v :: vs =>
    match toStatic v with
    | none => none
    | some w =>
      match toStaticL vs with
      | none => none
      | some ws => some (w :: ws)

/-- `to_static` mapped over the entries of a `BTreeMap<Cow<str>, Value>`
(keys are converted to owned strings, values recursively). -/
def toStaticD : List (String × Value) → Option (List (String × Value))
  | [] => some []
  | (k, v) :: vs =>
    match toStatic v with
    | none => none
    | some w =>
      match toStaticD vs with
      | none => none
      | some ws => some ((k, w) :: ws)

end

mutual

/-- Whether a `Value` is, or contains, an `EndSentinel` node (the notion the
claim about `to_static` totality is phrased in). -/
def hasSentinel : Value → Bool
  | .VList l => hasSentinelL l
  | .VApply _ args => hasSentinelL args
  | .VDict d => hasSentinelD d
  | .VEndSentinel => true
  | _ => false

/-- `hasSentinel` over a list of values. -/
def hasSentinelL : List Value → Bool
  | [] => false
  | v :: vs => hasSentinel v || hasSentinelL vs

/-- `hasSentinel` over dict entries. -/
def hasSentinelD : List (String × Value) → Bool
  | [] => false
  | (_, v) :: vs => hasSentinel v || hasSentinelD vs

end

/-! ## Degree centrality (`src/algo/degree_centrality.rs`)

The algorithm is generic in the tuple element type: `DataValue`
(`src/data/value.rs`) is outside the sources and the algorithm uses it only
as a `BTreeMap` key, i.e. through its total order and equality, so the
element type is a parameter with a linear order. -/

/-- Rust `usize as i64`: truncate to 64 bits and reinterpret as two's
complement. -/
def i64cast (n : Nat) : Int :=
  if n % 2 ^ 64 < 2 ^ 63 then ((n % 2 ^ 64 : Nat) : Int)
  else ((n % 2 ^ 64 : Nat) : Int) - 2 ^ 64

/-- An output tuple of `degree_centrality`:
`Tuple(vec![k, total as i64, out as i64, in as i64])`. -/
structure DCRow (α : Type) where
  key : α
  total_d : Int
  out_d : Int
  in_d : Int
deriving DecidableEq, Repr

/-- `DegreeCentrality::arity` from `degree_centrality.rs`. -/
def degree_centrality_arity : Nat := 4

/-- The counter-update of one loop iteration of `DegreeCentrality::run`:
`*from_total += 1; *from_out += 1` at key `from`. -/
def bumpOut {α : Type} [DecidableEq α] (k : α) (c : α → Nat × Nat × Nat) :
    α → Nat × Nat × Nat :=
  fun x => if x = k then ((c k).1 + 1, (c k).2.1 + 1, (c k).2.2) else c x

/-- The counter-update `*to_total += 1; *to_in += 1` at key `to`. -/
def bumpIn {α : Type} [DecidableEq α] (k : α) (c : α → Nat × Nat × Nat) :
    α → Nat × Nat × Nat :=
  fun x => if x = k then ((c k).1 + 1, (c k).2.1, (c k).2.2 + 1) else c x

/-- `BTreeMap::entry(k).or_default()` key bookkeeping: record `k` among the
map's keys if absent (the map itself iterates in sorted order, so the
recording order is immaterial). -/
def keysInsert {α : Type} [DecidableEq α] (ks : List α) (k : α) : List α :=
  if k ∈ ks then ks else ks ++ [k]

/-- The tuple loop of `DegreeCentrality::run`: for each input tuple, require
width at least two (`ensure!(tuple.0.len() >= 2, …)`), then bump the `from`
counters on field 0 and the `to` counters on field 1.  The counter map is
modelled as a total function plus its key set. -/
def dcLoop {α : Type} [DecidableEq α] :
    List (List α) → (α → Nat × Nat × Nat) → List α →
    Except String ((α → Nat × Nat × Nat) × List α)
  | [], c, ks => .ok (c, ks)
  | t :: ts, c, ks =>
    match t with
    | a :: b :: _ =>
      dcLoop ts (bumpIn b (bumpOut a c)) (keysInsert (keysInsert ks a) b)
    | _ =>
      .error "degree_centrality requires input relation to be a tuple of two elements"

/-- `DegreeCentrality::run` from `degree_centrality.rs`: requires exactly one
input relation, counts degrees, then emits `(k, total, out, in)` per counter
key in `BTreeMap` iteration order (ascending key), counts cast to `i64`.
`out.put` appends to the output store, modelled as the returned list. -/
def degree_centrality_run {α : Type} [LinearOrder α]
    (rels : List (List (List α))) : Except String (List (DCRow α)) :=
  match rels with
  | [r] =>
    match dcLoop r (fun _ => (0, 0, 0)) [] with
    | .error e => .error e
    | .ok (c, ks) =>
      .ok ((List.insertionSort (· ≤ ·) ks).map
        (fun k => ⟨k, i64cast (c k).1, i64cast (c k).2.1, i64cast (c k).2.2⟩))
  | rels' =>
    .error ("degree_centrality requires a single input relation, got "
      ++ toString rels'.length)

/-! ## CozoScript front end (`src/parse/cozoscript/query.rs`) -/

/-- A JSON value as produced by the front end (`serde_json::Value`). -/
inductive Json where
  | nul
  | boolean (b : Bool)
  | num (n : Int)
  | str (s : String)
  | arr (xs : List Json)
  | obj (m : List (String × Json))
deriving Repr

/-- Insertion into a `serde_json::Map` (a `BTreeMap<String, Value>`):
keeps entries sorted by key, replacing an existing entry. -/
def mapInsert : List (String × Json) → String → Json → List (String × Json)
  | [], k, v => [(k, v)]
  | (k', v') :: rest, k, v =>
    if k < k' then (k, v) :: (k', v') :: rest
    else if k = k' then (k, v) :: rest
    else (k', v') :: mapInsert rest k v

/-- Lookup in a `serde_json::Map` modelled as an association list. -/
def mapGet : List (String × Json) → String → Option Json
  | [], _ => none
  | (k', v') :: rest, k => if k = k' then some v' else mapGet rest k

/-- Field access `j["k"]` on a JSON object. -/
def jGet : Json → String → Option Json
  | .obj m, k => mapGet m k
  | _, _ => none

/-- The `const_rules` accumulator operation of `parsed_to_json`:
`const_rules.entry(name).or_insert_with(|| json!([])).as_array_mut().unwrap()
  .extend_from_slice(data)`.  Every stored entry is an array (the only writes
are this one), so the accumulator maps names directly to element lists;
insertion keeps the `BTreeMap` sorted by key. -/
def crExtend : List (String × List Json) → String → List Json →
    List (String × List Json)
  | [], k, data => [(k, data)]
  | (k', xs) :: rest, k, data =>
    if k < k' then (k, data) :: (k', xs) :: rest
    else if k = k' then (k', xs ++ data) :: rest
    else (k', xs) :: crExtend rest k data

/-- One top-level pair of a parsed script, as dispatched by the
`match pair.as_rule()` loop of `parsed_to_json` (the terminating `EOI` pair
is the end of the list).  Sub-parsers (`parse_rule`, `build_expr`,
`parse_limit_or_offset`, the sort collector, `parse_out_option`) run before
the accumulation under study, so each item carries their result. -/
inductive ScriptItem where
  | ruleIt (r : Json)
  | constRuleIt (name : String) (data : Json)
  | limitIt (n : Nat)
  | offsetIt (n : Nat)
  | sortIt (s : Json)
  | outIt (o : Json)
deriving Repr

/-- The accumulation loop of `parsed_to_json` over the script's pairs:
rules are pushed onto `rules` in order; a const rule whose expression is not
an array is an error, otherwise its elements extend the entry named by the
rule; `limit`/`offset`/`sort`/`out` insert into the result map. -/
def parsedLoop : List ScriptItem → List Json → List (String × List Json) →
    List (String × Json) →
    Except String (List Json × List (String × List Json) × List (String × Json))
  | [], rules, cr, ret => .ok (rules, cr, ret)
  | it :: its, rules, cr, ret =>
    match it with
    | .ruleIt r => parsedLoop its (rules ++ [r]) cr ret
    | .constRuleIt name data =>
      match data with
      | .arr xs => parsedLoop its rules (crExtend cr name xs) ret
      | _ => .error "expect const rules to be specified as an array"
    | .limitIt n => parsedLoop its rules cr (mapInsert ret "limit" (.num n))
    | .offsetIt n => parsedLoop its rules cr (mapInsert ret "offset" (.num n))
    | .sortIt s => parsedLoop its rules cr (mapInsert ret "sort" s)
    | .outIt o => parsedLoop its rules cr (mapInsert ret "out" o)

/-- `parsed_to_json` of `query.rs`: run the loop, then insert the
`const_rules` object and the `q` rule array into the result map. -/
def parsed_to_json (items : List ScriptItem) : Except String Json :=
  match parsedLoop items [] [] [] with
  | .error e => .error e
  | .ok (rules, cr, ret) =>
    .ok (.obj (mapInsert
      (mapInsert ret "const_rules" (.obj (cr.map (fun p => (p.1, Json.arr p.2)))))
      "q" (.arr rules)))

/-- The tuple arrays carried by the const-rule declarations named `name`, in
source order (used to state the concatenation claim). -/
def constArrays (items : List ScriptItem) (name : String) : List (List Json) :=
  items.filterMap (fun it =>
    match it with
    | .constRuleIt n (.arr xs) => if n = name then some xs else none
    | _ => none)

/-! ## Precedence climbing (`PREC_CLIMBER` in `value.rs` and `query.rs`)

Both surfaces drive `pest::prec_climber::PrecClimber::climb` with a primary
builder and an infix builder; the climber is embedded generically in the
result type, and each surface instantiates it with its own operator table
and infix constructor. -/

/-- The infix operator rules consumed by either climber. -/
inductive OpRule where
  | op_or
  | op_and
  | op_gt
  | op_lt
  | op_ge
  | op_le
  | op_mod
  | op_eq
  | op_ne
  | op_add
  | op_sub
  | op_str_cat
  | op_mul
  | op_div
  | op_pow
  | op_coalesce
deriving DecidableEq, Repr, Fintype

/-- `pest::prec_climber::Assoc`. -/
inductive Assoc where
  | Left
  | Right
deriving DecidableEq, Repr

/-- The operator table of `PREC_CLIMBER` in `value.rs`: groups from lowest to
highest binding get precedences 1, 2, … (`PrecClimber::new` numbers groups
from 1); `op_str_cat` is absent from this climber. -/
def valueOps : OpRule → Option (Nat × Assoc)
  | .op_or => some (1, .Left)
  | .op_and => some (2, .Left)
  | .op_gt => some (3, .Left)
  | .op_lt => some (3, .Left)
  | .op_ge => some (3, .Left)
  | .op_le => some (3, .Left)
  | .op_mod => some (4, .Left)
  | .op_eq => some (5, .Left)
  | .op_ne => some (5, .Left)
  | .op_add => some (6, .Left)
  | .op_sub => some (6, .Left)
  | .op_mul => some (7, .Left)
  | .op_div => some (7, .Left)
  | .op_pow => some (8, .Right)
  | .op_coalesce => some (9, .Left)
  | .op_str_cat => none

/-- The operator table of `PREC_CLIMBER` in `query.rs`: identical except that
`op_str_cat` joins the additive group and `op_coalesce` is absent. -/
def queryOps : OpRule → Option (Nat × Assoc)
  | .op_or => some (1, .Left)
  | .op_and => some (2, .Left)
  | .op_gt => some (3, .Left)
  | .op_lt => some (3, .Left)
  | .op_ge => some (3, .Left)
  | .op_le => some (3, .Left)
  | .op_mod => some (4, .Left)
  | .op_eq => some (5, .Left)
  | .op_ne => some (5, .Left)
  | .op_add => some (6, .Left)
  | .op_sub => some (6, .Left)
  | .op_str_cat => some (6, .Left)
  | .op_mul => some (7, .Left)
  | .op_div => some (7, .Left)
  | .op_pow => some (8, .Right)
  | .op_coalesce => none

mutual

/-- `PrecClimber::climb_rec`: while the next operator's precedence is at
least `minPrec`, consume it and its primary, let `climbInner` extend the
right-hand side, and fold with the infix builder.  The token stream after
the leading primary alternates operator and primary, modelled as a list of
pairs; `fuel` bounds the loop (pest's loops terminate by consuming tokens). -/
def climbRec {T : Type} (ops : OpRule → Option (Nat × Assoc))
    (infixFn : OpRule → T → T → T) (fuel : Nat) (lhs : T) (minPrec : Nat)
    (s : List (OpRule × T)) : T × List (OpRule × T) :=
  match fuel with
  | 0 => (lhs, s)
  | fuel + 1 =>
    match s with
    | [] => (lhs, [])
    | (op, p) :: rest =>
      match ops op with
      | none => (lhs, s)
      | some (prec, _) =>
        if minPrec ≤ prec then
          let (rhs, rest') := climbInner ops infixFn fuel p prec rest
          climbRec ops infixFn fuel (infixFn op lhs rhs) minPrec rest'
        else (lhs, s)

/-- The inner `while` of `PrecClimber::climb_rec`: while the peeked operator
binds tighter than the current one (or equally and right-associatively),
recurse to grow the right-hand side. -/
def climbInner {T : Type} (ops : OpRule → Option (Nat × Assoc))
    (infixFn : OpRule → T → T → T) (fuel : Nat) (rhs : T) (prec : Nat)
    (s : List (OpRule × T)) : T × List (OpRule × T) :=
  match fuel with
  | 0 => (rhs, s)
  | fuel + 1 =>
    match s with
    | [] => (rhs, [])
    | (op2, _) :: _ =>
      match ops op2 with
      | none => (rhs, s)
      | some (newPrec, assoc2) =>
        if prec < newPrec ∨ (assoc2 = Assoc.Right ∧ newPrec = prec) then
          let (rhs', s') := climbRec ops infixFn fuel rhs newPrec s
          climbInner ops infixFn fuel rhs' prec s'
        else (rhs, s)

end

/-- `PrecClimber::climb`: take the leading primary, then run `climb_rec`
with minimum precedence 0 over the remaining (operator, primary) pairs. -/
def climb {T : Type} (ops : OpRule → Option (Nat × Assoc))
    (infixFn : OpRule → T → T → T) (first : T) (rest : List (OpRule × T)) : T :=
  (climbRec ops infixFn (2 * rest.length + 2) first 0 rest).1

/-- The operator symbol chosen by `build_expr_infix` in `value.rs`
(`OP_ADD = "+"`, …).  `op_str_cat` has no arm there (`_ => unreachable!()`);
it is also absent from `valueOps`, so the value climber never passes it to
its infix builder. -/
def opStrValue : OpRule → String
  | .op_add => "+"
  | .op_sub => "-"
  | .op_mul => "*"
  | .op_div => "/"
  | .op_eq => "=="
  | .op_ne => "!="
  | .op_or => "||"
  | .op_and => "&&"
  | .op_mod => "%"
  | .op_gt => ">"
  | .op_ge => ">="
  | .op_lt => "<"
  | .op_le => "<="
  | .op_pow => "**"
  | .op_coalesce => "~~"
  | .op_str_cat => "unreachable"

/-- `build_expr_infix` of `value.rs`: `Value::Apply(op, vec![lhs, rhs])`. -/
def valueInfix (op : OpRule) (lhs rhs : Value) : Value :=
  Value.VApply (opStrValue op) [lhs, rhs]

/-- The capitalized operator name chosen by `build_expr_infix` in
`query.rs`.  `op_coalesce` has no arm there (`_ => unreachable!()`); it is
also absent from `queryOps`, so the query climber never passes it to its
infix builder. -/
def opNameQuery : OpRule → String
  | .op_add => "Add"
  | .op_sub => "Sub"
  | .op_mul => "Mul"
  | .op_div => "Div"
  | .op_mod => "Mod"
  | .op_pow => "Pow"
  | .op_eq => "Eq"
  | .op_ne => "Neq"
  | .op_gt => "Gt"
  | .op_ge => "Ge"
  | .op_lt => "Lt"
  | .op_le => "Le"
  | .op_str_cat => "StrCat"
  | .op_or => "Or"
  | .op_and => "And"
  | .op_coalesce => "unreachable"

/-- `build_expr_infix` of `query.rs`: `json!({"op": name, "args": args})`
(the `serde_json` map keeps its keys sorted, so `args` precedes `op`). -/
def queryInfix (op : OpRule) (lhs rhs : Json) : Json :=
  Json.obj [("args", Json.arr [lhs, rhs]), ("op", Json.str (opNameQuery op))]

/-- The group precedence of an operator in the `value.rs` climber
(0 when absent), for stating the binding-strength chain. -/
def precOfV (op : OpRule) : Nat := ((valueOps op).getD (0, .Left)).1

/-- The group precedence of an operator in the `query.rs` climber
(0 when absent). -/
def precOfQ (op : OpRule) : Nat := ((queryOps op).getD (0, .Left)).1

/-! ## Claim-side helper notions -/

/-- Whether an edge marker "carries an arrow": some inner pair is a
`bwd_marker` or `fwd_marker` (the claim's notion for direction derivation). -/
def carriesArrow (ps : List MarkerRule) : Bool :=
  ps.any (fun p =>
    match p with
    | .outer_marker => false
    | .bwd_marker => true
    | .fwd_marker => true)

/-- The claim's join table on `(src_outer, dst_outer)`: `(F,F) → Inner`,
`(F,T) → Left`, `(T,F) → Right`, `(T,T)` rejected. -/
def claimJoin : Bool → Bool → Option JoinType
  | false, false => some JoinType.Inner
  | false, true => some JoinType.Left
  | true, false => some JoinType.Right
  | true, true => none

/-- Whether a chain pair is an edge part whose two markers both carry the
outer flag. -/
def isDoubleOuter : ChainPairSrc → Bool
  | .edge_part src _ dst => (parse_edge_marker src).2 && (parse_edge_marker dst).2
  | .node_part _ => false

theorem parse_edge_marker_fst (ps : List MarkerRule) :
    (parse_edge_marker ps).1 = carriesArrow ps := by
  suffices h : ∀ a o : Bool,
      (ps.foldl
        (fun acc p =>
          match p with
          | MarkerRule.outer_marker => (acc.1, true)
          | MarkerRule.bwd_marker => (true, acc.2)
          | MarkerRule.fwd_marker => (true, acc.2)) (a, o)).1 = (a || carriesArrow ps) by
    simpa [parse_edge_marker] using h false false
  induction ps with
  | nil => simp [carriesArrow]
  | cons p ps ih =>
    intro a o
    cases p <;> simp [carriesArrow, List.any_cons, ih] <;>
      simp [carriesArrow] at ih ⊢ <;> cases a <;> simp [ih]

/-- Claim C4: for every edge element of a chain, the derived direction is
`Bidi` when both edge markers carry an arrow or neither does, `Fwd` when only
the right marker carries an arrow, and `Bwd` when only the left one does. -/
theorem edge_direction_derivation :
    (∀ ps : List MarkerRule, (parse_edge_marker ps).1 = carriesArrow ps) ∧
    (∀ (src dst : List MarkerRule) (middle : NodePartData) (el : ChainEl),
      parseChainEl (ChainPairSrc.edge_part src middle dst) = .ok el →
      ∃ jn, el.part = ChainPart.Edge
        (if carriesArrow src = carriesArrow dst then ChainPartEdgeDir.Bidi
         else if carriesArrow dst then ChainPartEdgeDir.Fwd
         else ChainPartEdgeDir.Bwd) jn) := by
  refine ⟨parse_edge_marker_fst, ?_⟩
  intro src dst middle el h
  simp only [parseChainEl] at h
  rcases hj : edgeJoin (parse_edge_marker src).2 (parse_edge_marker dst).2 with e | jn
  · rw [hj] at h; cases h
  · rw [hj] at h
    cases h
    refine ⟨jn, ?_⟩
    rw [← parse_edge_marker_fst src, ← parse_edge_marker_fst dst]
    rcases hs : (parse_edge_marker src).1 with _ | _ <;>
      rcases hd : (parse_edge_marker dst).1 with _ | _ <;> rfl

/-- Witness for C4: the edge `(-)-[:K]->` (no left arrow, right arrow, no
outer flags) derives direction `Fwd`. -/
theorem edge_direction_derivation_witness :
    ∃ jn, (ChainEl.mk (ChainPart.Edge ChainPartEdgeDir.Fwd JoinType.Inner) "e" "K" []).part
      = ChainPart.Edge ChainPartEdgeDir.Fwd jn := by
  have h := edge_direction_derivation.2 [] [MarkerRule.fwd_marker] ⟨"e", "K", []⟩
    ⟨ChainPart.Edge ChainPartEdgeDir.Fwd JoinType.Inner, "e", "K", []⟩ rfl
  simpa using h

/-- Claim C3: the derived join kind is exactly determined by the outer-marker
pair — `(F,F) → Inner`, `(F,T) → Left`, `(T,F) → Right` — and a `(T,T)` edge
makes chain parsing fail with `NoFullOuterInChain` instead of producing a
chain. -/
theorem edge_join_derivation :
    (∀ (src dst : List MarkerRule) (middle : NodePartData),
      parseChainEl (ChainPairSrc.edge_part src middle dst) =
        (match claimJoin (parse_edge_marker src).2 (parse_edge_marker dst).2 with
         | some jn => .ok ⟨ChainPart.Edge
             (edgeDir (parse_edge_marker src).1 (parse_edge_marker dst).1) jn,
             middle.binding, middle.target, middle.assocs⟩
         | none => .error JoinError.NoFullOuterInChain)) ∧
    (∀ pairs : List ChainPairSrc, (∃ p ∈ pairs, isDoubleOuter p = true) →
      parse_chain pairs = .error JoinError.NoFullOuterInChain) := by
  constructor
  · intro src dst middle
    simp only [parseChainEl]
    rcases hs : (parse_edge_marker src).2 with _ | _ <;>
      rcases hd : (parse_edge_marker dst).2 with _ | _ <;>
        simp [edgeJoin, claimJoin]
  · intro pairs hp
    induction pairs with
    | nil => simp at hp
    | cons p ps ih =>
      rcases hp with ⟨q, hq, hdo⟩
      rcases List.mem_cons.mp hq with rfl | hq'
      · rcases q with np | ⟨src, middle, dst⟩
        · simp [isDoubleOuter] at hdo
        · simp only [isDoubleOuter, Bool.and_eq_true] at hdo
          simp only [parse_chain, parseChainEl, hdo.1, hdo.2, edgeJoin]
      · rcases hpe : parseChainEl p with e | el
        · cases e; simp [parse_chain, hpe]
        · simp [parse_chain, hpe, ih ⟨q, hq', hdo⟩]

/-- Witness for C3: a double-outer edge in an otherwise fine chain makes
`parse_chain` fail with `NoFullOuterInChain`. -/
theorem edge_join_derivation_witness :
    parse_chain
      [ChainPairSrc.node_part ⟨"a", "P", []⟩,
       ChainPairSrc.edge_part [MarkerRule.outer_marker, MarkerRule.fwd_marker] ⟨"e", "K", []⟩
         [MarkerRule.outer_marker],
       ChainPairSrc.node_part ⟨"b", "P", []⟩]
      = .error JoinError.NoFullOuterInChain :=
  edge_join_derivation.2 _
    ⟨ChainPairSrc.edge_part [MarkerRule.outer_marker, MarkerRule.fwd_marker] ⟨"e", "K", []⟩
      [MarkerRule.outer_marker], by simp, by rfl⟩

/-- Claim C9: `build_from_clause` with a non-empty upstream always fails with
`Unchainable` (before any chain is planned), with no chain argument fails
with `NotEnoughArguments`, and succeeds only when the upstream is empty. -/
theorem from_clause_upstream :
    (∀ (r : RaBox) (args : List (List ChainPairSrc)),
      build_from_clause (some r) args =
        .error (BuildErr.alg (AlgebraParseError.Unchainable NAME_FROM))) ∧
    (build_from_clause none [] =
      .error (BuildErr.alg (AlgebraParseError.NotEnoughArguments NAME_FROM))) ∧
    (∀ (prev : Option RaBox) (args : List (List ChainPairSrc)) (r : RaBox),
      build_from_clause prev args = .ok r → prev = none) := by
  refine ⟨fun r args => rfl, rfl, ?_⟩
  intro prev args r h
  cases prev with
  | none => rfl
  | some p => simp [build_from_clause] at h

/-- Witness for C9: a one-node chain From clause succeeds with empty
upstream, and the same arguments under a non-empty upstream fail. -/
theorem from_clause_upstream_witness :
    build_from_clause (some (RaBox.tableScan ⟨ChainPart.Node, "a", "T", []⟩)) []
      = .error (BuildErr.alg (AlgebraParseError.Unchainable NAME_FROM)) ∧
    (none : Option RaBox) = none :=
  ⟨from_clause_upstream.1 _ _,
   from_clause_upstream.2.2 none [[ChainPairSrc.node_part ⟨"a", "T", []⟩]]
     (RaBox.tableScan ⟨ChainPart.Node, "a", "T", []⟩) rfl⟩

/-- Claim C2: for a node table with keys `k1..kn`, the synthesized join
predicate equates, per key, the edge binding's `_src_`/`_dst_`-prefixed
field (side chosen by traversal order and direction) with the node binding's
field; several keys combine under a single `And`, one key stays bare. -/
theorem join_condition_synthesis :
    ∀ (node_to_edge is_outer : Bool) (dir : ChainPartEdgeDir)
      (node_keys : List String) (node_binding edge_binding : String),
      dir ≠ ChainPartEdgeDir.Bidi →
      build_join_conditions node_to_edge is_outer dir node_keys node_binding edge_binding
        = some (claimJoinCond node_to_edge dir node_keys node_binding edge_binding) := by
  intro n2e io dir keys nb eb hdir
  cases dir with
  | Bidi => exact absurd rfl hdir
  | Fwd => cases n2e <;> simp [build_join_conditions, claimJoinCond]
  | Bwd => cases n2e <;> simp [build_join_conditions, claimJoinCond]

/-- Witness for C2 (spec scenario S3, forward leg): node keyed by `id`,
node-to-edge with direction `Fwd`, yields the bare equality
`e._src_id == a.id`. -/
theorem join_condition_synthesis_witness :
    build_join_conditions true false ChainPartEdgeDir.Fwd ["id"] "a" "e"
      = some (JExpr.Apply JoinOp.OpEq
          [JExpr.FieldAcc "_src_id" (JExpr.Variable "e"),
           JExpr.FieldAcc "id" (JExpr.Variable "a")]) := by
  have h := join_condition_synthesis true false ChainPartEdgeDir.Fwd ["id"] "a" "e"
    (by simp)
  rw [h]; rfl

theorem scanLoop_dup (els : List ChainEl) : ∀ seen : List String, seen.Nodup →
    ¬ (seen ++ els.map ChainEl.binding).Nodup →
    ∃ d, scanLoop seen els = .error (BuildErr.alg (AlgebraParseError.DuplicateBinding d)) ∧
      ((d ∈ seen ∧ d ∈ els.map ChainEl.binding) ∨
        2 ≤ (els.map ChainEl.binding).count d) := by
  induction els with
  | nil => intro seen hs hdup; simp at hdup; exact absurd hs hdup
  | cons el els ih =>
    intro seen hs hdup
    by_cases hmem : el.binding ∈ seen
    · exact ⟨el.binding, by simp [scanLoop, hmem], Or.inl ⟨hmem, by simp⟩⟩
    · have hperm : (seen ++ (el.binding :: els.map ChainEl.binding)).Perm
          ((el.binding :: seen) ++ els.map ChainEl.binding) :=
        List.perm_middle
      have hdup' : ¬ ((el.binding :: seen) ++ els.map ChainEl.binding).Nodup := by
        intro hn
        exact hdup (hperm.nodup_iff.mpr hn)
      have hs' : (el.binding :: seen).Nodup := by
        simp [List.nodup_cons, hmem, hs]
      obtain ⟨d, herr, hd⟩ := ih (el.binding :: seen) hs' hdup'
      refine ⟨d, by simp [scanLoop, hmem, herr], ?_⟩
      rcases hd with ⟨hdseen, hdmap⟩ | hcount
      · rcases List.mem_cons.mp hdseen with hEq | hdseen'
        · right
          subst hEq
          have hpos : 0 < (els.map ChainEl.binding).count el.binding :=
            List.count_pos_iff.mpr hdmap
          simp only [List.map_cons, List.count_cons_self]
          omega
        · exact Or.inl ⟨hdseen', by simp [hdmap]⟩
      · right
        have h1 : (els.map ChainEl.binding).count d ≤
            ((el :: els).map ChainEl.binding).count d := by
          simp only [List.map_cons, List.count_cons]
          omega
        omega

theorem fromLoop_ok : ∀ (rest : List (List ChainPairSrc)) (rs : List RaBox) (acc : RaBox),
    rest.map build_chain = rs.map Except.ok →
    (∀ s ∈ rs, Disjoint acc.bindings s.bindings) →
    (rs.map RaBox.bindings).Pairwise Disjoint →
    ∃ r, fromLoop acc rest = .ok r := by
  intro rest
  induction rest with
  | nil =>
    intro rs acc hmap _ _
    exact ⟨acc, rfl⟩
  | cons c rest' ih =>
    intro rs acc hmap hdisj hpw
    cases rs with
    | nil => simp at hmap
    | cons nxt rs' =>
      simp only [List.map_cons, List.cons.injEq] at hmap
      have hc : build_chain c = .ok nxt := hmap.1
      have hinter : acc.bindings ∩ nxt.bindings = ∅ :=
        Finset.disjoint_iff_inter_eq_empty.mp (hdisj nxt (by simp))
      obtain ⟨r, hr⟩ := ih rs' (RaBox.cartesian acc nxt) hmap.2
        (by
          intro s hs
          have h1 : Disjoint acc.bindings s.bindings := hdisj s (by simp [hs])
          have h2 : Disjoint nxt.bindings s.bindings := by
            have := (List.pairwise_cons.mp hpw).1 s.bindings
              (List.mem_map.mpr ⟨s, hs, rfl⟩)
            exact this
          simp [RaBox.bindings, Finset.disjoint_union_left, h1, h2])
        (List.pairwise_cons.mp hpw).2
      exact ⟨r, by simp [fromLoop, hc, hinter, hr]⟩

/-- Claim C5: a chain repeating a binding fails with `DuplicateBinding`
naming a duplicated binding; a From clause of two chains with intersecting
binding sets fails with `DuplicateBinding` naming a shared binding; and a
From clause of binding-disjoint chains passes the uniqueness check. -/
theorem binding_uniqueness :
    (∀ (chain : List ChainPairSrc) (els : List ChainEl),
      parse_chain chain = .ok els → ¬ (els.map ChainEl.binding).Nodup →
      ∃ d, build_chain chain = .error (BuildErr.alg (AlgebraParseError.DuplicateBinding d)) ∧
        2 ≤ (els.map ChainEl.binding).count d) ∧
    (∀ (c1 c2 : List ChainPairSrc) (r1 r2 : RaBox),
      build_chain c1 = .ok r1 → build_chain c2 = .ok r2 →
      r1.bindings ∩ r2.bindings ≠ ∅ →
      ∃ d, build_from_clause none [c1, c2] =
          .error (BuildErr.alg (AlgebraParseError.DuplicateBinding d)) ∧
        d ∈ r1.bindings ∧ d ∈ r2.bindings) ∧
    (∀ (args : List (List ChainPairSrc)) (rs : List RaBox),
      args.map build_chain = rs.map Except.ok →
      (rs.map RaBox.bindings).Pairwise Disjoint → args ≠ [] →
      ∃ r, build_from_clause none args = .ok r) := by
  refine ⟨?_, ?_, ?_⟩
  · intro chain els hparse hdup
    obtain ⟨d, herr, hd⟩ := scanLoop_dup els [] List.nodup_nil (by simpa using hdup)
    refine ⟨d, by simp [build_chain, hparse, herr], ?_⟩
    rcases hd with ⟨h, _⟩ | h
    · simp at h
    · exact h
  · intro c1 c2 r1 r2 h1 h2 hinter
    refine ⟨(r1.bindings ∩ r2.bindings).min' (Finset.nonempty_iff_ne_empty.mpr hinter), ?_, ?_⟩
    · simp [build_from_clause, h1, fromLoop, h2, hinter]
    · have hm := Finset.min'_mem (r1.bindings ∩ r2.bindings)
        (Finset.nonempty_iff_ne_empty.mpr hinter)
      exact ⟨(Finset.mem_inter.mp hm).1, (Finset.mem_inter.mp hm).2⟩
  · intro args rs hmap hpw hne
    cases args with
    | nil => exact absurd rfl hne
    | cons a rest =>
      cases rs with
      | nil => simp at hmap
      | cons r rs' =>
        simp only [List.map_cons, List.cons.injEq] at hmap
        obtain ⟨r', hr'⟩ := fromLoop_ok rest rs' r hmap.2
          (by
            intro s hs
            exact (List.pairwise_cons.mp hpw).1 s.bindings (List.mem_map.mpr ⟨s, hs, rfl⟩))
          (List.pairwise_cons.mp hpw).2
        exact ⟨r', by simp [build_from_clause, hmap.1, hr']⟩

/-- Witness for C5: the chain `(a:T)-…-(a:U)` repeats the binding `a` and is
rejected with `DuplicateBinding`. -/
theorem binding_uniqueness_witness :
    ∃ d, build_chain
        [ChainPairSrc.node_part ⟨"a", "T", []⟩, ChainPairSrc.node_part ⟨"a", "U", []⟩]
        = .error (BuildErr.alg (AlgebraParseError.DuplicateBinding d)) ∧
      2 ≤ ([⟨ChainPart.Node, "a", "T", []⟩,
            (⟨ChainPart.Node, "a", "U", []⟩ : ChainEl)].map ChainEl.binding).count d :=
  binding_uniqueness.1 _ _ rfl (by simp)

/-- Claim C1 (divergence exhibit): the tag byte order puts `BoolFalse` (1)
before `Null` (2), yet the derived `Value` ordering — variants in declaration
order `Null, Bool, …` — compares `Bool(false)` greater than `Null`, so the
claimed equivalence between `Value` comparison and tag-byte comparison fails
at `a = Bool(false)`, `b = Null`. -/
theorem value_order_vs_tag_order :
    Tag.toByte (tagOfValue (Value.VBool false)) < Tag.toByte (tagOfValue Value.VNull) ∧
    valueCompare (Value.VBool false) Value.VNull = Ordering.gt ∧
    ¬ valueLt (Value.VBool false) Value.VNull ∧
    valueLt Value.VNull (Value.VBool false) := by
  refine ⟨by decide, rfl, ?_, ?_⟩
  · intro h
    simp only [valueLt] at h
    rw [show valueCompare (Value.VBool false) Value.VNull = Ordering.gt from rfl] at h
    cases h
  · rfl

/-- Claim C10: `to_static` succeeds on every `EndSentinel`-free value,
returning a value of identical content, and panics (here: `none`) exactly
when the value is or contains an `EndSentinel`. -/
theorem to_static_totality : ∀ v : Value,
    (hasSentinel v = false → toStatic v = some v) ∧
    (hasSentinel v = true → toStatic v = none) := by
  intro v
  refine @Value.rec
    (fun v => (hasSentinel v = false → toStatic v = some v) ∧
      (hasSentinel v = true → toStatic v = none))
    (fun l => (hasSentinelL l = false → toStaticL l = some l) ∧
      (hasSentinelL l = true → toStaticL l = none))
    (fun d => (hasSentinelD d = false → toStaticD d = some d) ∧
      (hasSentinelD d = true → toStaticD d = none))
    (fun kv => (hasSentinel kv.2 = false → toStatic kv.2 = some kv.2) ∧
      (hasSentinel kv.2 = true → toStatic kv.2 = none))
    ⟨fun _ => rfl, by simp [hasSentinel]⟩
    (fun b => ⟨fun _ => rfl, by simp [hasSentinel]⟩)
    (fun u => ⟨fun _ => rfl, by simp [hasSentinel]⟩)
    (fun i => ⟨fun _ => rfl, by simp [hasSentinel]⟩)
    (fun f => ⟨fun _ => rfl, by simp [hasSentinel]⟩)
    (fun u => ⟨fun _ => rfl, by simp [hasSentinel]⟩)
    (fun t => ⟨fun _ => rfl, by simp [hasSentinel]⟩)
    ?list ?dict
    (fun s => ⟨fun _ => rfl, by simp [hasSentinel]⟩)
    ?apply
    ⟨by simp [hasSentinel], fun _ => rfl⟩
    ⟨fun _ => rfl, by simp [hasSentinelL]⟩
    ?lcons
    ⟨fun _ => rfl, by simp [hasSentinelD]⟩
    ?dcons
    (fun fst snd ih => ih)
    v
  case list =>
    intro l ih
    constructor
    · intro h
      simp only [hasSentinel] at h
      simp [toStatic, ih.1 h]
    · intro h
      simp only [hasSentinel] at h
      simp [toStatic, ih.2 h]
  case dict =>
    intro d ih
    constructor
    · intro h
      simp only [hasSentinel] at h
      simp [toStatic, ih.1 h]
    · intro h
      simp only [hasSentinel] at h
      simp [toStatic, ih.2 h]
  case apply =>
    intro op args ih
    constructor
    · intro h
      simp only [hasSentinel] at h
      simp [toStatic, ih.1 h]
    · intro h
      simp only [hasSentinel] at h
      simp [toStatic, ih.2 h]
  case lcons =>
    intro hd tl ih1 ih2
    constructor
    · intro h
      simp only [hasSentinelL, Bool.or_eq_false_iff] at h
      simp [toStaticL, ih1.1 h.1, ih2.1 h.2]
    · intro h
      simp only [hasSentinelL, Bool.or_eq_true] at h
      rcases h with h | h
      · simp [toStaticL, ih1.2 h]
      · rcases h1 : toStatic hd with _ | w
        · simp [toStaticL, h1]
        · simp [toStaticL, h1, ih2.2 h]
  case dcons =>
    intro hd tl ih1 ih2
    obtain ⟨k, v'⟩ := hd
    constructor
    · intro h
      simp only [hasSentinelD, Bool.or_eq_false_iff] at h
      simp [toStaticD, ih1.1 h.1, ih2.1 h.2]
    · intro h
      simp only [hasSentinelD, Bool.or_eq_true] at h
      rcases h with h | h
      · simp [toStaticD, ih1.2 h]
      · rcases h1 : toStatic v' with _ | w
        · simp [toStaticD, h1]
        · simp [toStaticD, h1, ih2.2 h]

/-- Witness for C10: a nested sentinel-free value round-trips through
`to_static`, and a value containing `EndSentinel` inside a list panics. -/
theorem to_static_totality_witness :
    toStatic (Value.VList [Value.VInt 1, Value.VDict [("k", Value.VText "x")]])
      = some (Value.VList [Value.VInt 1, Value.VDict [("k", Value.VText "x")]]) ∧
    toStatic (Value.VList [Value.VInt 1, Value.VEndSentinel]) = none :=
  ⟨(to_static_totality (Value.VList [Value.VInt 1, Value.VDict [("k", Value.VText "x")]])).1 rfl,
   (to_static_totality (Value.VList [Value.VInt 1, Value.VEndSentinel])).2 rfl⟩

/-- Claim C8: both climbers are left-associative except `**` (right), with
binding strength increasing `||`, `&&`, comparisons, `%`, `==`/`!=`,
additive (with string concat), multiplicative, `**`; and in particular
`a + b * c` parses as `a + (b*c)`, `a ** b ** c` as `a ** (b**c)`, and
`!x && y` as `(!x) && y` on both surfaces (`!x` is built by the primary
parser's unary production before climbing). -/
theorem precedence_climbing :
    (∀ op : OpRule, (valueOps op).map Prod.snd = some Assoc.Right ↔ op = OpRule.op_pow) ∧
    (∀ op : OpRule, (queryOps op).map Prod.snd = some Assoc.Right ↔ op = OpRule.op_pow) ∧
    (precOfV OpRule.op_or < precOfV OpRule.op_and ∧
     precOfV OpRule.op_and < precOfV OpRule.op_gt ∧
     precOfV OpRule.op_gt = precOfV OpRule.op_lt ∧
     precOfV OpRule.op_lt = precOfV OpRule.op_ge ∧
     precOfV OpRule.op_ge = precOfV OpRule.op_le ∧
     precOfV OpRule.op_le < precOfV OpRule.op_mod ∧
     precOfV OpRule.op_mod < precOfV OpRule.op_eq ∧
     precOfV OpRule.op_eq = precOfV OpRule.op_ne ∧
     precOfV OpRule.op_ne < precOfV OpRule.op_add ∧
     precOfV OpRule.op_add = precOfV OpRule.op_sub ∧
     precOfV OpRule.op_sub < precOfV OpRule.op_mul ∧
     precOfV OpRule.op_mul = precOfV OpRule.op_div ∧
     precOfV OpRule.op_div < precOfV OpRule.op_pow) ∧
    (precOfQ OpRule.op_or < precOfQ OpRule.op_and ∧
     precOfQ OpRule.op_and < precOfQ OpRule.op_gt ∧
     precOfQ OpRule.op_gt = precOfQ OpRule.op_lt ∧
     precOfQ OpRule.op_lt = precOfQ OpRule.op_ge ∧
     precOfQ OpRule.op_ge = precOfQ OpRule.op_le ∧
     precOfQ OpRule.op_le < precOfQ OpRule.op_mod ∧
     precOfQ OpRule.op_mod < precOfQ OpRule.op_eq ∧
     precOfQ OpRule.op_eq = precOfQ OpRule.op_ne ∧
     precOfQ OpRule.op_ne < precOfQ OpRule.op_add ∧
     precOfQ OpRule.op_add = precOfQ OpRule.op_sub ∧
     precOfQ OpRule.op_sub = precOfQ OpRule.op_str_cat ∧
     precOfQ OpRule.op_str_cat < precOfQ OpRule.op_mul ∧
     precOfQ OpRule.op_mul = precOfQ OpRule.op_div ∧
     precOfQ OpRule.op_div < precOfQ OpRule.op_pow) ∧
    (climb valueOps valueInfix (Value.VVariable "a")
        [(OpRule.op_add, Value.VVariable "b"), (OpRule.op_mul, Value.VVariable "c")]
      = Value.VApply "+" [Value.VVariable "a",
          Value.VApply "*" [Value.VVariable "b", Value.VVariable "c"]]) ∧
    (climb valueOps valueInfix (Value.VVariable "a")
        [(OpRule.op_pow, Value.VVariable "b"), (OpRule.op_pow, Value.VVariable "c")]
      = Value.VApply "**" [Value.VVariable "a",
          Value.VApply "**" [Value.VVariable "b", Value.VVariable "c"]]) ∧
    (climb valueOps valueInfix (Value.VApply "!" [Value.VVariable "x"])
        [(OpRule.op_and, Value.VVariable "y")]
      = Value.VApply "&&" [Value.VApply "!" [Value.VVariable "x"], Value.VVariable "y"]) ∧
    (climb queryOps queryInfix (Json.str "?a")
        [(OpRule.op_add, Json.str "?b"), (OpRule.op_mul, Json.str "?c")]
      = Json.obj [("args", Json.arr [Json.str "?a",
          Json.obj [("args", Json.arr [Json.str "?b", Json.str "?c"]),
            ("op", Json.str "Mul")]]),
          ("op", Json.str "Add")]) ∧
    (climb queryOps queryInfix (Json.str "?a")
        [(OpRule.op_pow, Json.str "?b"), (OpRule.op_pow, Json.str "?c")]
      = Json.obj [("args", Json.arr [Json.str "?a",
          Json.obj [("args", Json.arr [Json.str "?b", Json.str "?c"]),
            ("op", Json.str "Pow")]]),
          ("op", Json.str "Pow")]) ∧
    (climb queryOps queryInfix
        (Json.obj [("args", Json.arr [Json.str "?x"]), ("op", Json.str "Negate")])
        [(OpRule.op_and, Json.str "?y")]
      = Json.obj [("args", Json.arr
          [Json.obj [("args", Json.arr [Json.str "?x"]), ("op", Json.str "Negate")],
           Json.str "?y"]),
          ("op", Json.str "And")]) := by
  exact ⟨by decide, by decide, by decide, by decide,
    rfl, rfl, rfl, rfl, rfl, rfl⟩

/-- Witness for C8: the associativity characterization applied at `**` and
at `+` in the value climber's table. -/
theorem precedence_climbing_witness :
    ((valueOps OpRule.op_pow).map Prod.snd = some Assoc.Right ↔
      OpRule.op_pow = OpRule.op_pow) ∧
    ((valueOps OpRule.op_add).map Prod.snd = some Assoc.Right ↔
      OpRule.op_add = OpRule.op_pow) :=
  ⟨precedence_climbing.1 OpRule.op_pow, precedence_climbing.1 OpRule.op_add⟩

/-- Claim-side count: how many input tuples have `k` in their first field. -/
def outCount {α : Type} [DecidableEq α] (ts : List (List α)) (k : α) : Nat :=
  ts.countP (fun t => decide (t.head? = some k))

/-- Claim-side count: how many input tuples have `k` in their second field. -/
def inCount {α : Type} [DecidableEq α] (ts : List (List α)) (k : α) : Nat :=
  ts.countP (fun t => decide (t.get? 1 = some k))

/-- Claim-side key list: the distinct values occurring in the first or second
field of any input tuple, in ascending order. -/
def dcKeys {α : Type} [LinearOrder α] (ts : List (List α)) : List α :=
  List.insertionSort (· ≤ ·) (ts.filterMap List.head? ++ ts.filterMap (fun t => t.get? 1)).dedup

theorem bump_comp {α : Type} [DecidableEq α] (a b : α) (c : α → Nat × Nat × Nat) (k : α) :
    bumpIn b (bumpOut a c) k =
      ((c k).1 + (if k = a then 1 else 0) + (if k = b then 1 else 0),
       (c k).2.1 + (if k = a then 1 else 0),
       (c k).2.2 + (if k = b then 1 else 0)) := by
  by_cases hkb : k = b
  · subst hkb
    by_cases hka : k = a
    · subst hka
      simp [bumpIn, bumpOut]
    · simp [bumpIn, bumpOut, hka]
  · by_cases hka : k = a
    · subst hka
      simp [bumpIn, bumpOut, hkb, Ne.symm hkb]
    · simp [bumpIn, bumpOut, hka, hkb]

theorem keysInsert_toFinset {α : Type} [DecidableEq α] (ks : List α) (x : α) :
    (keysInsert ks x).toFinset = insert x ks.toFinset := by
  by_cases h : x ∈ ks
  · simp [keysInsert, h, Finset.insert_eq_self.mpr (List.mem_toFinset.mpr h)]
  · have h2 : keysInsert ks x = ks ++ [x] := by simp [keysInsert, h]
    rw [h2]
    simp [List.toFinset_append, Finset.insert_eq, Finset.union_comm]

theorem keysInsert_nodup {α : Type} [DecidableEq α] (ks : List α) (x : α)
    (h : ks.Nodup) : (keysInsert ks x).Nodup := by
  by_cases hm : x ∈ ks
  · simpa [keysInsert, hm] using h
  · simp [keysInsert, hm, List.nodup_append, h]

theorem dcLoop_ok {α : Type} [DecidableEq α] :
    ∀ (ts : List (List α)) (c : α → Nat × Nat × Nat) (ks : List α),
    (∀ t ∈ ts, 2 ≤ t.length) → ks.Nodup →
    ∃ c' ks', dcLoop ts c ks = .ok (c', ks') ∧
      (∀ k, c' k = ((c k).1 + outCount ts k + inCount ts k,
                    (c k).2.1 + outCount ts k,
                    (c k).2.2 + inCount ts k)) ∧
      ks'.toFinset = ks.toFinset ∪ (ts.filterMap List.head?).toFinset ∪
        (ts.filterMap (fun t => t.get? 1)).toFinset ∧
      ks'.Nodup := by
  intro ts
  induction ts with
  | nil =>
    intro c ks _ hnd
    exact ⟨c, ks, rfl, fun k => by simp [outCount, inCount], by simp, hnd⟩
  | cons t ts' ih =>
    intro c ks hw hnd
    have ht : 2 ≤ t.length := hw t (by simp)
    rcases t with _ | ⟨a, t1⟩
    · simp at ht
    rcases t1 with _ | ⟨b, rest⟩
    · simp at ht
    obtain ⟨c', ks', hrun, hc, hks, hnd'⟩ := ih (bumpIn b (bumpOut a c))
      (keysInsert (keysInsert ks a) b) (fun t' ht' => hw t' (by simp [ht']))
      (keysInsert_nodup _ _ (keysInsert_nodup _ _ hnd))
    refine ⟨c', ks', by simpa [dcLoop] using hrun, ?_, ?_, hnd'⟩
    · intro k
      have hout : outCount ((a :: b :: rest) :: ts') k =
          outCount ts' k + (if k = a then 1 else 0) := by
        simp only [outCount, List.countP_cons, List.head?]
        by_cases h : a = k <;> simp [h, eq_comm]
      have hin : inCount ((a :: b :: rest) :: ts') k =
          inCount ts' k + (if k = b then 1 else 0) := by
        simp only [inCount, List.countP_cons]
        by_cases h : b = k <;> simp [List.get?, h, eq_comm]
      rw [hc k, bump_comp, hout, hin]
      simp only [Prod.mk.injEq]
      refine ⟨?_, ?_, ?_⟩ <;> omega
    · rw [hks, keysInsert_toFinset, keysInsert_toFinset]
      ext x
      simp [List.get?]

/-- Claim C6: `degree_centrality` has arity 4, fails on any relation count
other than one, and on one relation of tuples of width ≥ 2 emits, per
distinct value in the first or second fields and in ascending key order,
`(key, total, out, in)` with `out`/`in` counting first- and second-field
occurrences, `total = out + in`, all cast to `i64`. -/
theorem degree_centrality_spec {α : Type} [LinearOrder α] :
    degree_centrality_arity = 4 ∧
    (∀ rels : List (List (List α)), rels.length ≠ 1 →
      ∃ msg, degree_centrality_run rels = .error msg) ∧
    (∀ ts : List (List α), (∀ t ∈ ts, 2 ≤ t.length) →
      degree_centrality_run [ts] = .ok ((dcKeys ts).map (fun k =>
        ⟨k, i64cast (outCount ts k + inCount ts k),
            i64cast (outCount ts k), i64cast (inCount ts k)⟩))) := by
  refine ⟨rfl, ?_, ?_⟩
  · intro rels hlen
    match rels with
    | [] => exact ⟨_, rfl⟩
    | [r] => exact absurd rfl hlen
    | r1 :: r2 :: rest => exact ⟨_, rfl⟩
  · intro ts hw
    obtain ⟨c', ks', hrun, hc, hks, hnd⟩ :=
      dcLoop_ok ts (fun _ => (0, 0, 0)) [] hw List.nodup_nil
    have hsort : ks'.toFinset =
        ((ts.filterMap List.head? ++ ts.filterMap (fun t => t.get? 1)).toFinset) := by
      rw [hks]
      simp [List.toFinset_append]
    have hperm : ks'.Perm
        (ts.filterMap List.head? ++ ts.filterMap (fun t => t.get? 1)).dedup := by
      have h1 := List.toFinset_eq_iff_perm_dedup.mp hsort
      rwa [hnd.dedup] at h1
    have hkey : List.insertionSort (· ≤ ·) ks' = dcKeys ts :=
      List.eq_of_perm_of_sorted
        (((List.perm_insertionSort _ ks').trans hperm).trans
          (List.perm_insertionSort _ _).symm)
        (List.sorted_insertionSort _ _) (List.sorted_insertionSort _ _)
    have hfun : (fun k => (⟨k, i64cast (c' k).1, i64cast (c' k).2.1,
        i64cast (c' k).2.2⟩ : DCRow α)) = (fun k =>
        ⟨k, i64cast (outCount ts k + inCount ts k),
            i64cast (outCount ts k), i64cast (inCount ts k)⟩) := by
      funext k
      rw [hc k]
      simp
    simp only [degree_centrality_run, hrun, hkey, hfun]

/-- Witness for C6 (spec scenario S6): edges `(1,2), (2,3), (1,3)` yield
`(1,2,2,0), (2,2,1,1), (3,2,0,2)`. -/
theorem degree_centrality_spec_witness :
    @degree_centrality_run Int _ [[[1, 2], [2, 3], [1, 3]]]
      = .ok [⟨1, 2, 2, 0⟩, ⟨2, 2, 1, 1⟩, ⟨3, 2, 0, 2⟩] := by
  have h := (@degree_centrality_spec Int _).2.2 [[1, 2], [2, 3], [1, 3]] (by decide)
  rw [h]
  rfl

/-- Lookup in the const-rules accumulator. -/
def crGet : List (String × List Json) → String → Option (List Json)
  | [], _ => none
  | (k1, xs) :: rest, k => if k = k1 then some xs else crGet rest k

theorem mapGet_mapInsert (m : List (String × Json)) (k : String) (v : Json)
    (k' : String) :
    mapGet (mapInsert m k v) k' = if k' = k then some v else mapGet m k' := by
  induction m with
  | nil => simp [mapInsert, mapGet]
  | cons p rest ih =>
    obtain ⟨k1, v1⟩ := p
    simp only [mapInsert]
    by_cases h1 : k < k1
    · rw [if_pos h1]
      show (if k' = k then some v else _) = _
      by_cases h2 : k' = k <;> simp [h2, mapGet]
    · by_cases h2 : k = k1
      · subst h2
        rw [if_neg h1, if_pos rfl]
        show (if k' = k then some v else mapGet rest k') = _
        by_cases h3 : k' = k <;> simp [h3, mapGet]
      · rw [if_neg h1, if_neg h2]
        show (if k' = k1 then some v1 else mapGet (mapInsert rest k v) k') = _
        by_cases h3 : k' = k1
        · subst h3
          simp [Ne.symm h2, mapGet]
        · simp [h3, ih, mapGet]

/-- The keys of `crExtend cr k data` are `k` and the keys of `cr`. -/
theorem crExtend_keys (cr : List (String × List Json)) (k : String)
    (data : List Json) :
    ∀ y ∈ (crExtend cr k data).map Prod.fst, y = k ∨ y ∈ cr.map Prod.fst := by
  induction cr with
  | nil => simp [crExtend]
  | cons p rest ih =>
    obtain ⟨k1, xs⟩ := p
    simp only [crExtend]
    by_cases h1 : k < k1
    · rw [if_pos h1]
      intro y hy
      simp only [List.map_cons, List.mem_cons] at hy ⊢
      tauto
    · by_cases h2 : k = k1
      · subst h2
        rw [if_neg h1, if_pos rfl]
        intro y hy
        simp only [List.map_cons, List.mem_cons] at hy ⊢
        tauto
      · rw [if_neg h1, if_neg h2]
        intro y hy
        simp only [List.map_cons, List.mem_cons] at hy ⊢
        rcases hy with rfl | hy
        · tauto
        · rcases ih y hy with rfl | h
          · tauto
          · tauto

theorem crExtend_sorted (cr : List (String × List Json)) (k : String)
    (data : List Json) (hs : (cr.map Prod.fst).Pairwise (· < ·)) :
    ((crExtend cr k data).map Prod.fst).Pairwise (· < ·) := by
  induction cr with
  | nil => simp [crExtend]
  | cons p rest ih =>
    obtain ⟨k1, xs⟩ := p
    simp only [List.map_cons, List.pairwise_cons] at hs
    simp only [crExtend]
    by_cases h1 : k < k1
    · rw [if_pos h1]
      simp only [List.map_cons, List.pairwise_cons]
      refine ⟨?_, hs.1, hs.2⟩
      intro y hy
      rcases List.mem_cons.mp hy with rfl | hy'
      · exact h1
      · exact h1.trans (hs.1 y hy')
    · by_cases h2 : k = k1
      · subst h2
        rw [if_neg h1, if_pos rfl]
        simp only [List.map_cons, List.pairwise_cons]
        exact ⟨hs.1, hs.2⟩
      · rw [if_neg h1, if_neg h2]
        have hk1k : k1 < k := by
          rcases lt_trichotomy k k1 with h | h | h
          · exact absurd h h1
          · exact absurd h h2
          · exact h
        simp only [List.map_cons, List.pairwise_cons]
        refine ⟨?_, ih hs.2⟩
        intro y hy
        rcases crExtend_keys rest k data y hy with rfl | hy'
        · exact hk1k
        · exact hs.1 y hy'

theorem crGet_none (cr : List (String × List Json)) (k : String)
    (h : k ∉ cr.map Prod.fst) : crGet cr k = none := by
  induction cr with
  | nil => rfl
  | cons p rest ih =>
    obtain ⟨k1, xs⟩ := p
    simp only [List.map_cons, List.mem_cons, not_or] at h
    rw [crGet, if_neg h.1]
    exact ih h.2

theorem crGet_crExtend (cr : List (String × List Json)) (k : String)
    (data : List Json) (k' : String)
    (hs : (cr.map Prod.fst).Pairwise (· < ·)) :
    crGet (crExtend cr k data) k' =
      if k' = k then some ((crGet cr k).getD [] ++ data) else crGet cr k' := by
  induction cr with
  | nil =>
    show crGet [(k, data)] k' = _
    by_cases h : k' = k <;> simp [crGet, h]
  | cons p rest ih =>
    obtain ⟨k1, xs⟩ := p
    simp only [List.map_cons, List.pairwise_cons] at hs
    simp only [crExtend]
    by_cases h1 : k < k1
    · rw [if_pos h1]
      have hknone : crGet ((k1, xs) :: rest) k = none := by
        apply crGet_none
        simp only [List.map_cons, List.mem_cons, not_or]
        refine ⟨ne_of_lt h1, fun hmem => ?_⟩
        exact absurd (h1.trans (hs.1 k hmem)) (lt_irrefl k)
      show (if k' = k then some data else crGet ((k1, xs) :: rest) k') = _
      by_cases h2 : k' = k <;> simp [h2, hknone]
    · by_cases h2 : k = k1
      · subst h2
        rw [if_neg h1, if_pos rfl]
        show (if k' = k then some (xs ++ data) else crGet rest k') = _
        by_cases h3 : k' = k <;> simp [crGet, h3]
      · rw [if_neg h1, if_neg h2]
        show (if k' = k1 then some xs else crGet (crExtend rest k data) k') = _
        by_cases h3 : k' = k1
        · subst h3
          simp [crGet, Ne.symm h2]
        · rw [if_neg h3, ih hs.2]
          by_cases h4 : k' = k <;> simp [crGet, h2, h3, h4]

theorem mapGet_crMap (cr : List (String × List Json)) (name : String) :
    mapGet (cr.map (fun p => (p.1, Json.arr p.2))) name =
      (crGet cr name).map Json.arr := by
  induction cr with
  | nil => simp [mapGet, crGet]
  | cons p rest ih =>
    obtain ⟨k1, xs⟩ := p
    by_cases h : name = k1 <;> simp [mapGet, crGet, h, ih]

theorem parsedLoop_cr (name : String) : ∀ (items : List ScriptItem)
    (rules : List Json) (cr : List (String × List Json))
    (ret : List (String × Json))
    (out : List Json × List (String × List Json) × List (String × Json)),
    parsedLoop items rules cr ret = .ok out →
    (cr.map Prod.fst).Pairwise (· < ·) →
    crGet out.2.1 name =
      (match constArrays items name with
       | [] => crGet cr name
       | arrs => some ((crGet cr name).getD [] ++ arrs.flatten)) := by
  intro items
  induction items with
  | nil =>
    intro rules cr ret out h hs
    cases h
    simp [constArrays]
  | cons it its ih =>
    intro rules cr ret out h hs
    cases it with
    | ruleIt r =>
      simpa [constArrays] using ih (rules ++ [r]) cr ret out h hs
    | constRuleIt n data =>
      cases data with
      | arr xs =>
        have h' : parsedLoop its rules (crExtend cr n xs) ret = .ok out := h
        have hrec := ih rules (crExtend cr n xs) ret out h' (crExtend_sorted cr n xs hs)
        by_cases hn : n = name
        · subst hn
          have hca : constArrays (ScriptItem.constRuleIt n (Json.arr xs) :: its) n =
              xs :: constArrays its n := by
            simp [constArrays]
          rw [hca]
          rw [crGet_crExtend cr n xs n hs, if_pos rfl] at hrec
          rcases hz : constArrays its n with _ | ⟨a0, arest⟩
          · rw [hz] at hrec
            simp only at hrec
            rw [hrec]
            simp
          · rw [hz] at hrec
            simp only at hrec
            rw [hrec]
            simp [List.append_assoc]
        · have hca : constArrays (ScriptItem.constRuleIt n (Json.arr xs) :: its) name =
              constArrays its name := by
            simp [constArrays, hn]
          rw [hca]
          rw [crGet_crExtend cr n xs name hs,
            if_neg (fun hh => hn hh.symm)] at hrec
          exact hrec
      | nul => exact absurd h (by simp [parsedLoop])
      | boolean b => exact absurd h (by simp [parsedLoop])
      | num x => exact absurd h (by simp [parsedLoop])
      | str s => exact absurd h (by simp [parsedLoop])
      | obj m => exact absurd h (by simp [parsedLoop])
    | limitIt n =>
      simpa [constArrays] using
        ih rules cr (mapInsert ret "limit" (Json.num n)) out h hs
    | offsetIt n =>
      simpa [constArrays] using
        ih rules cr (mapInsert ret "offset" (Json.num n)) out h hs
    | sortIt s =>
      simpa [constArrays] using ih rules cr (mapInsert ret "sort" s) out h hs
    | outIt o =>
      simpa [constArrays] using ih rules cr (mapInsert ret "out" o) out h hs

/-- Claim C7: when a script declares several const rules under one name, the
parsed AST's `const_rules` entry for that name is the concatenation, in
source order, of the declarations' tuple arrays. -/
theorem const_rule_concatenation :
    ∀ (items : List ScriptItem) (name : String) (j : Json),
    parsed_to_json items = .ok j → constArrays items name ≠ [] →
    ∃ m, jGet j "const_rules" = some (Json.obj m) ∧
      mapGet m name = some (Json.arr (constArrays items name).flatten) := by
  intro items name j hok hne
  rcases hloop : parsedLoop items [] [] [] with e | ⟨rules, cr, ret⟩
  · rw [parsed_to_json, hloop] at hok
    cases hok
  · rw [parsed_to_json, hloop] at hok
    cases hok
    refine ⟨cr.map (fun p => (p.1, Json.arr p.2)), ?_, ?_⟩
    · show mapGet _ "const_rules" = _
      rw [mapGet_mapInsert]
      rw [if_neg (by decide), mapGet_mapInsert, if_pos rfl]
    · rw [mapGet_crMap]
      have hcr := parsedLoop_cr name items [] [] [] (rules, cr, ret) hloop
        (by simp)
      rcases hca : constArrays items name with _ | ⟨a0, arest⟩
      · exact absurd hca hne
      · rw [hca] at hcr
        simp only at hcr
        rw [hcr]
        simp [crGet]

/-- Witness for C7: two `:const x = […]` declarations concatenate in source
order. -/
theorem const_rule_concatenation_witness :
    ∃ m, jGet (Json.obj
        [("const_rules", Json.obj [("x", Json.arr [Json.num 1, Json.num 2])]),
         ("q", Json.arr [])]) "const_rules" = some (Json.obj m) ∧
      mapGet m "x" = some (Json.arr [Json.num 1, Json.num 2]) :=
  const_rule_concatenation
    [ScriptItem.constRuleIt "x" (Json.arr [Json.num 1]),
     ScriptItem.constRuleIt "x" (Json.arr [Json.num 2])]
    "x"
    (Json.obj
      [("const_rules", Json.obj [("x", Json.arr [Json.num 1, Json.num 2])]),
       ("q", Json.arr [])])
    (by
      have h1 : ¬ (("x" : String) < "x") := lt_irrefl _
      have h2 : ¬ (("q" : String) < "const_rules") := by
        rw [String.lt_iff_toList_lt]
        decide
      have h3 : ("q" : String) ≠ "const_rules" := by decide
      simp [parsed_to_json, parsedLoop, crExtend, mapInsert, h1, h2, h3])
    (List.cons_ne_nil _ _)
end Cozo
